import Mathlib

/-!
Verification development for the measurement-and-structural modelling core of
the `gscm-mining-impact-analysis` repository.

The pandas/numpy code is embedded shallowly:
- a data column over `n` observations becomes a vector `Fin n → K` over a field
  `K` (the float computations are idealised as exact field arithmetic; the parts
  of the code that take square roots are embedded over `ℝ` with `Real.sqrt`,
  the square-root-free parts are kept generic so they can be evaluated at `ℚ`);
- an indicator matrix (rows = complete-case observations, columns = items)
  becomes `X : Fin n → Fin k → K`;
- pandas `NaN` results become `Option.none`;
- Python exceptions become `Except` errors;
- a DataFrame with a dynamic column set becomes a structure carrying the list
  of column names together with the column data.
-/

namespace GSCM

/-! ### Basic statistics (pandas `mean`, `var`, centred dot product) -/

variable {K : Type} [LinearOrderedField K]

/-- Mean of a vector, `Series.mean()`.  (For `n = 0` this is `0/0 = 0` in Lean;
the code never takes the mean of an empty series on the paths modelled here.) -/
def vmean {n : ℕ} (v : Fin n → K) : K := (∑ i, v i) / (n : K)

/-- Centred dot product `∑ i (x i - mean x) * (y i - mean y)`, the common core
of variance, covariance and Pearson correlation. -/
def cdot {n : ℕ} (x y : Fin n → K) : K :=
  ∑ i, (x i - vmean x) * (y i - vmean y)

/-- Population variance, `Series.var(ddof=0)` (the square of `std(ddof=0)`). -/
def popVar {n : ℕ} (v : Fin n → K) : K :=
  (∑ i, (v i - vmean v) ^ 2) / (n : K)

/-- Sample variance, `Series.var(ddof=1)`; pandas returns `NaN` (here `none`)
when fewer than two observations are available. -/
def sampleVar {n : ℕ} (v : Fin n → K) : Option K :=
  if n < 2 then none
  else some ((∑ i, (v i - vmean v) ^ 2) / ((n : K) - 1))

/-! ### Cronbach's alpha (`_cronbach_alpha` in `src/analysis/outer_model.py`) -/

/-- Embedding of `_cronbach_alpha`: with `k` items (columns of `X`), item
sample variances (ddof=1) and the sample variance of the row-wise summed
score, `alpha = k/(k-1) * (1 - sum(item_vars)/total_var)`; `none` (NaN) when
`k < 2` or the total variance is zero or undefined.  The `.getD 0` models
pandas `Series.sum()` skipping NaN entries (on the branch where the sum is
used the item variances are in fact all defined, see `cronbach_alpha_spec_ok`). -/
def cronbach_alpha {n k : ℕ} (X : Fin n → Fin k → K) : Option K :=
  if k < 2 then none
  else
    match sampleVar (fun i => ∑ j, X i j) with
    | none => none
    | some tv =>
        if tv = 0 then none
        else
          some (((k : K) / ((k : K) - 1)) *
            (1 - (∑ j, (sampleVar (fun i => X i j)).getD 0) / tv))

/-- Modelled from the spec's wording (for the refinement claim about
`_cronbach_alpha`): `alpha = k/(k-1) * (1 - sum(v_i)/V)` with the item sample
variances written out directly, undefined exactly when `k < 2` or the
summed-score sample variance `V` is zero or undefined. -/
def cronbach_alpha_spec {n k : ℕ} (X : Fin n → Fin k → K) : Option K :=
  match sampleVar (fun i => ∑ j, X i j) with
  | none => none
  | some V =>
      if k < 2 ∨ V = 0 then none
      else
        some (((k : K) / ((k : K) - 1)) *
          (1 - (∑ j, (∑ i, (X i j - vmean (fun i => X i j)) ^ 2) / ((n : K) - 1)) / V))

/-! ### Loadings, CR, AVE (`_compute_loadings_cr_ave`) -/

/-- Column standardisation `Z = ((X - X.mean()) / X.std(ddof=0)).fillna(0)`:
zero-variance columns become all zeros instead of dividing by zero. -/
noncomputable def standardize {n : ℕ} (v : Fin n → ℝ) : Fin n → ℝ :=
  if popVar v = 0 then fun _ => 0
  else fun i => (v i - vmean v) / Real.sqrt (popVar v)

/-- Pearson correlation as pandas `Series.corr` computes it on complete data. -/
noncomputable def corr {n : ℕ} (x y : Fin n → ℝ) : ℝ :=
  cdot x y / Real.sqrt (cdot x x * cdot y y)

/-- Standardised `j`-th indicator column of `X`. -/
noncomputable def colZ {n k : ℕ} (X : Fin n → Fin k → ℝ) (j : Fin k) : Fin n → ℝ :=
  standardize (fun i => X i j)

/-- Construct composite: row-wise mean of the standardised indicators,
`Z.mean(axis=1)`. -/
noncomputable def compositeZ {n k : ℕ} (X : Fin n → Fin k → ℝ) : Fin n → ℝ :=
  fun i => (∑ j, colZ X j i) / (k : ℝ)

/-- Indicator loading: Pearson correlation of the standardised indicator with
the composite, guarded exactly as in the source (`NaN` when either the
standardised column or the composite has zero `std(ddof=0)`). -/
noncomputable def loading {n k : ℕ} (X : Fin n → Fin k → ℝ) (j : Fin k) : Option ℝ :=
  if popVar (colZ X j) = 0 ∨ popVar (compositeZ X) = 0 then none
  else some (corr (colZ X j) (compositeZ X))

/-- The loadings that are defined (`lambdas = [v for v in loadings.values()
if not isnan(v)]`), in column order. -/
noncomputable def defined_loadings {n k : ℕ} (X : Fin n → Fin k → ℝ) : List ℝ :=
  (List.finRange k).filterMap (fun j => loading X j)

/-- Composite reliability and AVE from the defined loadings:
`CR = (Σλ)² / ((Σλ)² + Σ(1-λ²))` (`none` if the denominator is zero, or if no
loading is defined), `AVE = mean(λ²)` (`none` if no loading is defined). -/
noncomputable def cr_ave {n k : ℕ} (X : Fin n → Fin k → ℝ) : Option ℝ × Option ℝ :=
  let ls := defined_loadings X
  if ls = [] then (none, none)
  else
    let num := ls.sum ^ 2
    let den := num + (ls.map (fun l => 1 - l ^ 2)).sum
    (if den = 0 then none else some (num / den),
     some ((ls.map (fun l => l ^ 2)).sum / (ls.length : ℝ)))

/-- Embedding of `_compute_loadings_cr_ave`: the per-indicator loadings
together with CR and AVE.  (For `k = 0` the source returns `({}, nan, nan)`;
here the loading map is empty-domain and `cr_ave` is `(none, none)`.) -/
noncomputable def compute_loadings_cr_ave {n k : ℕ} (X : Fin n → Fin k → ℝ) :
    (Fin k → Option ℝ) × Option ℝ × Option ℝ :=
  (fun j => loading X j, (cr_ave X).1, (cr_ave X).2)

/-! ### KPI index computation (`src/preprocessing/kpi_scores.py`) -/

def SITE_ID_COL : String := "site_id"

def OE_KPIS_HIGH_IS_BETTER : List String :=
  ["uptime_percent", "tons_per_hour"]

def OE_KPIS_LOW_IS_BETTER : List String :=
  ["cost_per_ton", "rework_rate_percent", "energy_kwh_per_ton",
   "water_m3_per_ton", "maintenance_cost_per_ton"]

def SAFETY_KPIS_HIGH_IS_BETTER : List String :=
  ["safety_audits_passed_percent", "employees_competent_percent"]

def SAFETY_KPIS_LOW_IS_BETTER : List String :=
  ["ltifr", "trifr"]

/-- The module-level `OE_WEIGHTS` dictionary, as a total map with the
dictionary's `get(kpi, 0.0)` default built in. -/
def OE_WEIGHTS : String → ℝ := fun s =>
  if s = "uptime_percent" then 0.30
  else if s = "tons_per_hour" then 0.30
  else if s = "cost_per_ton" then 0.20
  else if s = "energy_kwh_per_ton" then 0.10
  else if s = "rework_rate_percent" then 0.05
  else if s = "maintenance_cost_per_ton" then 0.05
  else 0

/-- The named standardised components of the OE_HARD index, in the insertion
order of the source's `components` dict: high-is-better KPIs standardised
directly, low-is-better KPIs standardised and sign-flipped.  A site-level
table restricted to its numeric KPI columns is modelled as a total map from
column name to site vector. -/
noncomputable def oe_components {n : ℕ} (df : String → Fin n → ℝ) :
    List (String × (Fin n → ℝ)) :=
  OE_KPIS_HIGH_IS_BETTER.map (fun s => (s, standardize (df s))) ++
  OE_KPIS_LOW_IS_BETTER.map (fun s => (s, fun i => -standardize (df s) i))

/-- The `simple` method: unweighted row-wise mean of all components. -/
noncomputable def oe_simple {n : ℕ} (df : String → Fin n → ℝ) : Fin n → ℝ :=
  fun i => ((oe_components df).map (fun p => p.2 i)).sum /
    ((oe_components df).length : ℝ)

/-- The `weighted` method: row-wise weighted sum divided by the total applied
weight, falling back to the raw weighted sum when the total weight is zero.
The source skips components whose weight is zero; skipped components
contribute `0` to both running sums, so the sums below are over all
components. -/
noncomputable def oe_weighted {n : ℕ} (df : String → Fin n → ℝ) (w : String → ℝ) :
    Fin n → ℝ :=
  let tw := ((oe_components df).map (fun p => w p.1)).sum
  fun i =>
    let ws := ((oe_components df).map (fun p => w p.1 * p.2 i)).sum
    if tw = 0 then ws else ws / tw

/-- Embedding of `compute_oe_hard`, with the weight dictionary (a module-level
configuration constant in the source, `OE_WEIGHTS`) passed explicitly; `none`
models the `ValueError` raised for an unknown method string. -/
noncomputable def compute_oe_hard {n : ℕ} (df : String → Fin n → ℝ)
    (method : String) (w : String → ℝ) : Option (Fin n → ℝ) :=
  if method = "simple" then some (oe_simple df)
  else if method = "weighted" then some (oe_weighted df w)
  else none

/-! ### KPI validation and per-site aggregation -/

/-- The required KPI columns (the source takes the set union of the four
direction lists; the four lists are pairwise disjoint, so their concatenation
has the same members). -/
def required_kpis : List String :=
  OE_KPIS_HIGH_IS_BETTER ++ OE_KPIS_LOW_IS_BETTER ++
  SAFETY_KPIS_HIGH_IS_BETTER ++ SAFETY_KPIS_LOW_IS_BETTER

/-- Embedding of `validate_kpi_columns`: the list of missing required columns
(`site_id` first, then every required KPI absent from `cols`).  The source
raises `ValueError` listing exactly these names when the list is nonempty. -/
def validate_kpi_columns (cols : List String) : List String :=
  (if SITE_ID_COL ∈ cols then [] else [SITE_ID_COL]) ++
  required_kpis.filter (fun c => decide (¬ c ∈ cols))

/-- A raw KPI DataFrame: its column names, the site identifier of each row,
and the numeric data of each column. -/
structure KpiFrame (n : ℕ) where
  cols : List String
  site : Fin n → String
  val : String → Fin n → ℚ

/-- A per-site aggregated KPI table. -/
structure SiteKpiAgg where
  sites : List String
  val : String → String → ℚ

/-- Group-by-site mean of a column (`df.groupby("site_id").mean()`). -/
def group_mean {n : ℕ} (t : KpiFrame n) (c : String) (s : String) : ℚ :=
  (∑ i ∈ Finset.univ.filter (fun i => t.site i = s), t.val c i) /
    ((Finset.univ.filter (fun i : Fin n => t.site i = s)).card : ℚ)

/-- Embedding of `aggregate_kpis_per_site`: validates the columns first and
fails with the full missing-column list before any aggregation is performed;
otherwise groups by `site_id` and averages every column. -/
def aggregate_kpis_per_site {n : ℕ} (t : KpiFrame n) :
    Except (List String) SiteKpiAgg :=
  if validate_kpi_columns t.cols = [] then
    .ok { sites := (List.ofFn t.site).dedup, val := fun c s => group_mean t c s }
  else .error (validate_kpi_columns t.cols)

/-! ### Structural path regressions (`src/analysis/structural_paths.py`) -/

/-- A site-level merged table for the structural models. -/
structure SiteFrame (n : ℕ) where
  cols : List String
  val : String → Fin n → ℚ

/-- The hard-coded `path_specs` dictionary of `run_structural_paths`, in
insertion order. -/
def PATH_SPECS : List (String × List String) :=
  [("OE", ["MAINT", "COMP", "SUPINT"]),
   ("EP", ["OE"]),
   ("OE_HARD", ["MAINT", "SUPINT", "COMP", "GPUR", "GOPS", "GLOG", "GTRN", "GCOL"]),
   ("SAFETY_PERF", ["GTRN", "MAINT", "COMP"])]

/-- The missing-column failure pandas raises for one path spec: `df[target]`
raises a `KeyError` naming the target if it is absent; otherwise
`df[predictors]` raises a `KeyError` naming the absent predictors. -/
def spec_missing (cols : List String) (target : String) (preds : List String) :
    List String :=
  if target ∈ cols then preds.filter (fun p => decide (¬ p ∈ cols))
  else [target]

/-- The failure mode of `run_structural_paths`: a missing-column error
(pandas `KeyError` on column selection), carrying the missing names. -/
inductive StructError where
  | missingColumns (names : List String)

/-- Result record of `_ols_regression`. -/
structure PathResult where
  intercept : ℚ
  coefficients : List (String × ℚ)
  r2 : Option ℚ
  nObs : ℕ

/-- Design matrix with a prepended intercept column of ones
(`np.column_stack([np.ones(len(X)), X])`). -/
def design {n p : ℕ} (X : Fin p → Fin n → ℚ) : Matrix (Fin n) (Fin (p + 1)) ℚ :=
  Matrix.of fun i => Fin.cons 1 (fun j => X j i)

/-- The coefficient vector of `np.linalg.lstsq` on the intercept-augmented
design, modelled through the normal equations `coef = (DᵀD)⁻¹ Dᵀ y`.  On a
design of full column rank this is exactly the unique least-squares solution
that `lstsq` returns (`ols_coef_normal_eq` below verifies the normal
equations); Mathlib's matrix inverse is `0` on singular matrices, where
`lstsq` would instead return a minimum-norm solution — no claim exercises
that case. -/
noncomputable def ols_coef {n p : ℕ} (y : Fin n → ℚ) (X : Fin p → Fin n → ℚ) :
    Fin (p + 1) → ℚ :=
  ((((design X).transpose * design X)⁻¹) * (design X).transpose).mulVec y

/-- Coefficients together with `R² = 1 - ss_res/ss_tot`; `none` models the
`NaN` returned when `ss_tot` is not positive.  (`ss_tot`, a sum of squares,
is nonnegative, so the source's `ss_tot > 0` test is the `ss_tot ≠ 0` test;
see `ols_ssTot_nonneg`.) -/
noncomputable def ols_fit {n p : ℕ} (y : Fin n → ℚ) (X : Fin p → Fin n → ℚ) :
    (Fin (p + 1) → ℚ) × Option ℚ :=
  let c := ols_coef y X
  let ssRes := ∑ i, (y i - (design X).mulVec c i) ^ 2
  let ssTot := ∑ i, (y i - vmean y) ^ 2
  (c, if ssTot = 0 then none else some (1 - ssRes / ssTot))

/-- Embedding of `_ols_regression` for a named predictor table (the frames
modelled here are complete-case, so the source's `dropna` is the identity). -/
noncomputable def ols_regression {n : ℕ} (y : Fin n → ℚ) (names : List String)
    (X : String → Fin n → ℚ) : PathResult :=
  let fit := ols_fit y (fun j : Fin names.length => X (names.get j))
  { intercept := fit.1 0
    coefficients := List.ofFn (fun j : Fin names.length => (names.get j, fit.1 j.succ))
    r2 := fit.2
    nObs := n }

/-- Embedding of `run_structural_paths`, processing the path specs in order:
each spec either fails on an absent target/predictor column (aborting the
whole run, as the uncaught `KeyError` does) or contributes one regression
result. -/
noncomputable def run_structural_paths {n : ℕ} (t : SiteFrame n) :
    List (String × List String) → Except StructError (List (String × PathResult))
  | [] => .ok []
  | (target, preds) :: rest =>
      if spec_missing t.cols target preds = [] then
        match run_structural_paths t rest with
        | .error e => .error e
        | .ok rs => .ok ((target, ols_regression (t.val target) preds t.val) :: rs)
      else .error (.missingColumns (spec_missing t.cols target preds))

/-- Whether an `Except` computation failed. -/
def except_is_error {ε α : Type} : Except ε α → Bool
  | .error _ => true
  | .ok _ => false

/-! ### Concrete inputs used by the witness theorems -/

/-- A 2×2 rational indicator matrix with rows `(0,0)` and `(1,2)`. -/
def X9 : Fin 2 → Fin 2 → ℚ := ![![0, 0], ![1, 2]]

/-- A two-site KPI table whose `uptime_percent` column is `(0, 2)` and whose
other columns are constant zero. -/
noncomputable def dfC5 : String → Fin 2 → ℝ := fun s i =>
  if s = "uptime_percent" then (if i = 0 then 0 else 2) else 0

/-- A weight map putting weight `1` on `uptime_percent` and `0` elsewhere. -/
def wC5 : String → ℝ := fun s => if s = "uptime_percent" then 1 else 0

/-- A one-site KPI table that is identically zero. -/
def dfC10 : String → Fin 1 → ℝ := fun _ _ => 0

/-- A two-row predictor table whose every column is `(0, 1)`. -/
def dfC6 : String → Fin 2 → ℚ := fun _ i => if i = 0 then 0 else 1

/-- The target `y = 2*x + 1` over the predictor `(0, 1)`. -/
def yC6 : Fin 2 → ℚ := fun i => if i = 0 then 1 else 3

/-- A one-row KPI frame that has every required column except `ltifr`. -/
def tC7 : KpiFrame 1 where
  cols := SITE_ID_COL :: required_kpis.filter (fun c => decide (¬ c = "ltifr"))
  site := fun _ => "s1"
  val := fun _ _ => 0

/-- A one-row site frame that only has the `OE` column. -/
def sC8 : SiteFrame 1 where
  cols := ["OE"]
  val := fun _ _ => 0

/-- A 2×2 constant real indicator matrix (every column has zero variance). -/
def XC3 : Fin 2 → Fin 2 → ℝ := fun _ _ => 3

/-- A 2×2 real indicator matrix with rows `(0,0)` and `(2,2)`. -/
def X2 : Fin 2 → Fin 2 → ℝ := ![![0, 0], ![2, 2]]

/-! ### Basic lemmas about the statistics -/

theorem sum_sub_vmean {n : ℕ} (v : Fin n → K) : ∑ i, (v i - vmean v) = 0 := by
  rcases Nat.eq_zero_or_pos n with h | h
  · subst h; simp
  · have hn : (n : K) ≠ 0 := Nat.cast_ne_zero.mpr h.ne'
    simp only [Finset.sum_sub_distrib, Finset.sum_const, Finset.card_univ,
      Fintype.card_fin, vmean, nsmul_eq_mul]
    field_simp

theorem popVar_nonneg {n : ℕ} (v : Fin n → K) : 0 ≤ popVar v :=
  div_nonneg (Finset.sum_nonneg fun _ _ => sq_nonneg _) (Nat.cast_nonneg n)

theorem pos_of_popVar_ne_zero {n : ℕ} {v : Fin n → K} (h : popVar v ≠ 0) : 0 < n := by
  rcases Nat.eq_zero_or_pos n with h0 | h0
  · subst h0
    exact absurd (by simp [popVar]) h
  · exact h0

theorem vmean_of_const {n : ℕ} (hn : 0 < n) (c : K) : vmean (fun _ : Fin n => c) = c := by
  have h : (n : K) ≠ 0 := Nat.cast_ne_zero.mpr hn.ne'
  simp only [vmean, Finset.sum_const, Finset.card_univ, Fintype.card_fin, nsmul_eq_mul]
  field_simp

theorem sq_dev_sum_of_const {n : ℕ} {v : Fin n → K} (h : ∀ i i', v i = v i') :
    (∑ i, (v i - vmean v) ^ 2) = 0 := by
  rcases Nat.eq_zero_or_pos n with h0 | h0
  · subst h0; simp
  · obtain ⟨i0⟩ : Nonempty (Fin n) := ⟨⟨0, h0⟩⟩
    have hv : v = fun _ => v i0 := funext fun i => h i i0
    rw [hv, vmean_of_const h0]
    simp

theorem popVar_of_const {n : ℕ} {v : Fin n → K} (h : ∀ i i', v i = v i') :
    popVar v = 0 := by
  rw [popVar, sq_dev_sum_of_const h, zero_div]

/-! ### C1: Cronbach's alpha matches the spec formula -/

/-- C1: for every indicator matrix `X` with `k` columns, `_cronbach_alpha`
returns exactly `k/(k-1) * (1 - sum of item sample variances (ddof=1) /
sample variance (ddof=1) of the row-wise summed score)`, and the result is
not-a-number exactly when `k < 2` or the summed-score variance is zero or
undefined. -/
theorem cronbach_alpha_eq_spec {n k : ℕ} (X : Fin n → Fin k → K) :
    cronbach_alpha X = cronbach_alpha_spec X ∧
      (cronbach_alpha X = none ↔
        k < 2 ∨ sampleVar (fun i => ∑ j, X i j) = none ∨
          sampleVar (fun i => ∑ j, X i j) = some 0) := by
  constructor
  · unfold cronbach_alpha cronbach_alpha_spec
    by_cases hk : k < 2
    · rw [if_pos hk]
      cases hsv : sampleVar (fun i => ∑ j, X i j) with
      | none => rfl
      | some tv => simp [hk]
    · rw [if_neg hk]
      cases hsv : sampleVar (fun i => ∑ j, X i j) with
      | none => rfl
      | some tv =>
        dsimp only
        by_cases htv : tv = 0
        · simp [htv, hk]
        · have hn : ¬ n < 2 := by
            intro hlt
            simp [sampleVar, hlt] at hsv
          rw [if_neg htv, if_neg (by simp [hk, htv])]
          have hsum : (∑ j, (sampleVar (fun i => X i j)).getD 0) =
              ∑ j, (∑ i, (X i j - vmean (fun i => X i j)) ^ 2) / ((n : K) - 1) :=
            Finset.sum_congr rfl fun j _ => by simp [sampleVar, hn]
          rw [hsum]
  · unfold cronbach_alpha
    by_cases hk : k < 2
    · simp [hk]
    · rw [if_neg hk]
      cases hsv : sampleVar (fun i => ∑ j, X i j) with
      | none => simp [hk]
      | some tv =>
        by_cases htv : tv = 0
        · subst htv; simp [hk]
        · simp [hk, htv]

/-! ### C9: a defined alpha never exceeds 1 -/

/-- C9: whenever Cronbach's alpha is defined (at least 2 items and a nonzero
summed-score sample variance), its value is at most 1. -/
theorem cronbach_alpha_le_one {n k : ℕ} (X : Fin n → Fin k → K) (a : K)
    (h : cronbach_alpha X = some a) : a ≤ 1 := by
  unfold cronbach_alpha at h
  by_cases hk : k < 2
  · simp [hk] at h
  rw [if_neg hk] at h
  cases hsv : sampleVar (fun i => ∑ j, X i j) with
  | none => rw [hsv] at h; exact absurd h (by simp)
  | some tv =>
    rw [hsv] at h
    dsimp only at h
    by_cases htv : tv = 0
    · simp [htv] at h
    rw [if_neg htv] at h
    have ha : a = ((k : K) / ((k : K) - 1)) *
        (1 - (∑ j, (sampleVar (fun i => X i j)).getD 0) / tv) :=
      (Option.some_inj.mp h).symm
    -- observation count is at least 2, otherwise the total variance is NaN
    have hn2 : 2 ≤ n := by
      by_contra hlt
      push_neg at hlt
      simp [sampleVar, hlt] at hsv
    have hnK : (0 : K) < (n : K) - 1 := by
      have : (2 : K) ≤ (n : K) := by exact_mod_cast hn2
      linarith
    have hk2 : 2 ≤ k := Nat.not_lt.mp hk
    have hkK : (2 : K) ≤ (k : K) := by exact_mod_cast hk2
    have hkpos : (0 : K) < (k : K) := by linarith
    have hk1 : (0 : K) < (k : K) - 1 := by linarith
    -- name the underlying sums of squared deviations
    set T : K := ∑ i, ((fun i => ∑ j, X i j) i - vmean (fun i => ∑ j, X i j)) ^ 2 with hT
    set S : K := ∑ j, ∑ i, (X i j - vmean (fun i => X i j)) ^ 2 with hS
    have htveq : tv = T / ((n : K) - 1) := by
      rw [sampleVar, if_neg (Nat.not_lt.mpr hn2)] at hsv
      exact (Option.some_inj.mp hsv).symm
    have hitem : (∑ j, (sampleVar (fun i => X i j)).getD 0) = S / ((n : K) - 1) := by
      rw [hS, Finset.sum_div]
      exact Finset.sum_congr rfl fun j _ => by simp [sampleVar, Nat.not_lt.mpr hn2]
    -- the summed-score deviations are the row sums of the per-item deviations
    have hrow : ∀ i, (∑ j, X i j) - vmean (fun i => ∑ j, X i j) =
        ∑ j, (X i j - vmean (fun i => X i j)) := by
      intro i
      have hmean : vmean (fun i => ∑ j, X i j) = ∑ j, vmean (fun i => X i j) := by
        simp only [vmean, ← Finset.sum_div]
        rw [Finset.sum_comm]
      rw [hmean, Finset.sum_sub_distrib]
    -- Cauchy–Schwarz rowwise: T ≤ k * S
    have hTS : T ≤ (k : K) * S := by
      have hstep : ∀ i : Fin n, ((fun i => ∑ j, X i j) i - vmean (fun i => ∑ j, X i j)) ^ 2 ≤
          (k : K) * ∑ j, (X i j - vmean (fun i => X i j)) ^ 2 := by
        intro i
        rw [hrow i]
        simpa using sq_sum_le_card_mul_sum_sq
          (s := (Finset.univ : Finset (Fin k)))
          (f := fun j => X i j - vmean (fun i => X i j))
      calc T ≤ ∑ i, (k : K) * ∑ j, (X i j - vmean (fun i => X i j)) ^ 2 :=
            Finset.sum_le_sum fun i _ => hstep i
        _ = (k : K) * S := by rw [← Finset.mul_sum, hS, Finset.sum_comm]
    have hTnonneg : 0 ≤ T := Finset.sum_nonneg fun _ _ => sq_nonneg _
    have htvpos : 0 < tv := by
      rcases lt_or_eq_of_le (div_nonneg hTnonneg hnK.le) with hlt | heq
      · rwa [htveq]
      · exact absurd (htveq.trans heq.symm) htv
    have htvS : tv ≤ ((k : K) * S) / ((n : K) - 1) := by
      rw [htveq]
      exact div_le_div_of_nonneg_right hTS hnK.le
    have hassoc : ((k : K) * S) / ((n : K) - 1) = (S / ((n : K) - 1)) * (k : K) := by
      ring
    -- hence sum(item vars)/tv ≥ 1/k and the alpha bound follows
    have hfrac : 1 / (k : K) ≤ (S / ((n : K) - 1)) / tv := by
      rw [div_le_div_iff₀ hkpos htvpos]
      linarith [htvS, hassoc]
    have hone : ((k : K) / ((k : K) - 1)) * (1 - 1 / (k : K)) = 1 := by
      field_simp
    calc a = ((k : K) / ((k : K) - 1)) *
          (1 - (∑ j, (sampleVar (fun i => X i j)).getD 0) / tv) := ha
      _ = ((k : K) / ((k : K) - 1)) * (1 - (S / ((n : K) - 1)) / tv) := by rw [hitem]
      _ ≤ ((k : K) / ((k : K) - 1)) * (1 - 1 / (k : K)) := by
          apply mul_le_mul_of_nonneg_left _ (le_of_lt (div_pos hkpos hk1))
          linarith [hfrac]
      _ = 1 := hone

/-- Witness for C9 at the concrete matrix `X9` (alpha evaluates to `8/9`). -/
theorem cronbach_alpha_le_one_witness :
    cronbach_alpha X9 = some (8 / 9) ∧ (8 / 9 : ℚ) ≤ 1 :=
  ⟨by norm_num [cronbach_alpha, sampleVar, vmean, X9, Fin.sum_univ_two],
   cronbach_alpha_le_one X9 (8 / 9)
     (by norm_num [cronbach_alpha, sampleVar, vmean, X9, Fin.sum_univ_two])⟩

/-! ### Lemmas about standardisation -/

theorem sum_standardize {n : ℕ} (v : Fin n → ℝ) : ∑ i, standardize v i = 0 := by
  unfold standardize
  split
  · simp
  · rw [← Finset.sum_div, sum_sub_vmean, zero_div]

theorem vmean_standardize {n : ℕ} (v : Fin n → ℝ) : vmean (standardize v) = 0 := by
  rw [vmean, sum_standardize, zero_div]

theorem vmean_comp_perm {n : ℕ} (v : Fin n → K) (σ : Equiv.Perm (Fin n)) :
    vmean (fun i => v (σ i)) = vmean v := by
  rw [vmean, vmean, Equiv.sum_comp σ v]

theorem popVar_comp_perm {n : ℕ} (v : Fin n → K) (σ : Equiv.Perm (Fin n)) :
    popVar (fun i => v (σ i)) = popVar v := by
  rw [popVar, popVar, vmean_comp_perm]
  congr 1
  exact Equiv.sum_comp σ (fun x => (v x - vmean v) ^ 2)

theorem standardize_comp_perm {n : ℕ} (v : Fin n → ℝ) (σ : Equiv.Perm (Fin n)) :
    standardize (fun i => v (σ i)) = fun i => standardize v (σ i) := by
  unfold standardize
  rw [popVar_comp_perm, vmean_comp_perm]
  split
  · rfl
  · rfl

/-! ### C4: the simple OE index is invariant under row permutation -/

theorem oe_components_comp_perm {n : ℕ} (df : String → Fin n → ℝ)
    (σ : Equiv.Perm (Fin n)) :
    oe_components (fun s i => df s (σ i)) =
      (oe_components df).map (fun p => (p.1, fun i => p.2 (σ i))) := by
  unfold oe_components
  rw [List.map_append, List.map_map, List.map_map]
  congr 1
  · exact List.map_congr_left fun s _ =>
      congrArg (Prod.mk s) (standardize_comp_perm (df s) σ)
  · refine List.map_congr_left fun s _ => ?_
    refine congrArg (Prod.mk s) (funext fun i => ?_)
    simp only [congrFun (standardize_comp_perm (df s) σ) i]

/-- C4: computing the OE_HARD index with the `simple` method on a row-permuted
site table yields exactly the same permutation of the index computed on the
original table. -/
theorem oe_simple_perm_invariant {n : ℕ} (df : String → Fin n → ℝ)
    (w : String → ℝ) (σ : Equiv.Perm (Fin n)) :
    compute_oe_hard (fun s i => df s (σ i)) "simple" w =
      (compute_oe_hard df "simple" w).map (fun f => fun i => f (σ i)) := by
  simp only [compute_oe_hard, if_pos, Option.map_some']
  refine congrArg some (funext fun i => ?_)
  unfold oe_simple
  rw [oe_components_comp_perm, List.map_map, List.length_map]
  rfl

/-! ### C5: the weighted method with a single unit weight reproduces that
component -/

/-- C5: with a weight map assigning `1.0` to exactly one OE KPI and `0` to
every other name, the `weighted` OE_HARD index is exactly that KPI's
standardised value, sign-flipped when the KPI is in the low-is-better list. -/
theorem oe_weighted_single_kpi {n : ℕ} (df : String → Fin n → ℝ) (kpi : String)
    (w : String → ℝ) (h1 : w kpi = 1) (h0 : ∀ s, s ≠ kpi → w s = 0)
    (hmem : kpi ∈ OE_KPIS_HIGH_IS_BETTER ∨ kpi ∈ OE_KPIS_LOW_IS_BETTER) :
    compute_oe_hard df "weighted" w =
      some (fun i => if kpi ∈ OE_KPIS_HIGH_IS_BETTER then standardize (df kpi) i
        else -standardize (df kpi) i) := by
  have hw : ∀ s, w s = if s = kpi then 1 else 0 := by
    intro s
    by_cases hs : s = kpi
    · rw [if_pos hs, hs, h1]
    · rw [if_neg hs, h0 s hs]
  have hmethod : compute_oe_hard df "weighted" w = some (oe_weighted df w) := by
    simp [compute_oe_hard]
  rw [hmethod]
  refine congrArg some (funext fun i => ?_)
  rcases hmem with hm | hm
  · simp only [OE_KPIS_HIGH_IS_BETTER, List.mem_cons, List.not_mem_nil, or_false] at hm
    rcases hm with rfl | rfl <;>
      simp [oe_weighted, oe_components, OE_KPIS_HIGH_IS_BETTER,
        OE_KPIS_LOW_IS_BETTER, hw]
  · simp only [OE_KPIS_LOW_IS_BETTER, List.mem_cons, List.not_mem_nil, or_false] at hm
    rcases hm with rfl | rfl | rfl | rfl | rfl <;>
      simp [oe_weighted, oe_components, OE_KPIS_HIGH_IS_BETTER,
        OE_KPIS_LOW_IS_BETTER, hw]

/-- Witness for C5: unit weight on `uptime_percent` over a two-site table. -/
theorem oe_weighted_single_kpi_witness :
    compute_oe_hard dfC5 "weighted" wC5 =
      some (fun i => if "uptime_percent" ∈ OE_KPIS_HIGH_IS_BETTER then
        standardize (dfC5 "uptime_percent") i
        else -standardize (dfC5 "uptime_percent") i) :=
  oe_weighted_single_kpi dfC5 "uptime_percent" wC5 (by norm_num [wC5])
    (fun s hs => by simp [wC5, hs])
    (Or.inl (by norm_num [OE_KPIS_HIGH_IS_BETTER]))

/-! ### C10: the simple OE index has mean zero across sites -/

theorem sum_univ_list_sum {α : Type} {n : ℕ} (l : List α) (g : α → Fin n → K) :
    ∑ i, (l.map (fun a => g a i)).sum = (l.map (fun a => ∑ i, g a i)).sum := by
  induction l with
  | nil => simp
  | cons a t ih => simp [Finset.sum_add_distrib, ih]

/-- C10: on a complete site table with at least one site, the `simple`
OE_HARD index has mean exactly zero across the sites (every standardised or
sign-flipped component sums to zero, including zero-variance components
mapped to all zeros). -/
theorem oe_simple_mean_zero {n : ℕ} (df : String → Fin n → ℝ) (w : String → ℝ)
    (f : Fin n → ℝ) (hn : 0 < n) (hf : compute_oe_hard df "simple" w = some f) :
    vmean f = 0 := by
  have hfeq : f = oe_simple df := by
    simp only [compute_oe_hard, if_pos, Option.some_inj] at hf
    exact hf.symm
  rw [hfeq]
  unfold vmean oe_simple
  rw [← Finset.sum_div, sum_univ_list_sum]
  have hz : ((oe_components df).map (fun p => ∑ i, p.2 i)).sum = 0 := by
    refine List.sum_eq_zero fun x hx => ?_
    obtain ⟨p, hp, rfl⟩ := List.mem_map.mp hx
    rcases List.mem_append.mp hp with hhi | hlo
    · obtain ⟨s, _, rfl⟩ := List.mem_map.mp hhi
      exact sum_standardize (df s)
    · obtain ⟨s, _, rfl⟩ := List.mem_map.mp hlo
      simp [sum_standardize (df s)]
  rw [hz, zero_div, zero_div]

/-- Witness for C10 at a one-site, identically-zero table. -/
theorem oe_simple_mean_zero_witness : vmean (oe_simple dfC10) = 0 :=
  oe_simple_mean_zero dfC10 OE_WEIGHTS (oe_simple dfC10) (by norm_num)
    (by simp [compute_oe_hard])

/-! ### C7: missing required KPI columns abort the aggregation -/

/-- C7: for every KPI table missing a required KPI column, the per-site
aggregation fails with the schema error that lists the missing columns (the
missing column is named in the error payload), and — validation running
before any grouping — no aggregate is produced. -/
theorem aggregate_missing_kpi_schema_error {n : ℕ} (t : KpiFrame n) (c : String)
    (hc : c ∈ required_kpis) (hnc : ¬ c ∈ t.cols) :
    aggregate_kpis_per_site t = .error (validate_kpi_columns t.cols) ∧
      c ∈ validate_kpi_columns t.cols := by
  have hmem : c ∈ validate_kpi_columns t.cols := by
    unfold validate_kpi_columns
    refine List.mem_append.mpr (Or.inr ?_)
    exact List.mem_filter.mpr ⟨hc, by simpa using hnc⟩
  have hne : validate_kpi_columns t.cols ≠ [] := by
    intro h
    rw [h] at hmem
    exact List.not_mem_nil c hmem
  exact ⟨by rw [aggregate_kpis_per_site, if_neg hne], hmem⟩

/-- Witness for C7: a frame with every required column except `ltifr`. -/
theorem aggregate_missing_kpi_schema_error_witness :
    aggregate_kpis_per_site tC7 = .error (validate_kpi_columns tC7.cols) ∧
      "ltifr" ∈ validate_kpi_columns tC7.cols :=
  aggregate_missing_kpi_schema_error tC7 "ltifr" (by decide) (by decide)

/-! ### C8: structural paths fail on absent construct columns -/

/-- C8: for every site table and path-spec list in which some referenced
target or predictor column is absent from the table, running the structural
paths fails (with the missing-column error, the only failure mode of the
run) instead of returning results. -/
theorem run_structural_paths_missing_column {n : ℕ} (t : SiteFrame n)
    (specs : List (String × List String)) (target : String) (preds : List String)
    (hmem : (target, preds) ∈ specs)
    (hmiss : ¬ target ∈ t.cols ∨ ∃ p, p ∈ preds ∧ ¬ p ∈ t.cols) :
    except_is_error (run_structural_paths t specs) = true := by
  induction specs with
  | nil => exact absurd hmem (List.not_mem_nil _)
  | cons hd rest ih =>
    obtain ⟨tg, ps⟩ := hd
    rw [run_structural_paths]
    by_cases hsm : spec_missing t.cols tg ps = []
    · rw [if_pos hsm]
      rcases List.mem_cons.mp hmem with heq | htail
      · exfalso
        obtain ⟨h1, h2⟩ := Prod.mk.injEq .. |>.mp heq
        subst h1; subst h2
        unfold spec_missing at hsm
        rcases hmiss with hmt | ⟨p, hp, hpn⟩
        · rw [if_neg hmt] at hsm
          exact List.cons_ne_nil _ _ hsm
        · by_cases ht : target ∈ t.cols
          · rw [if_pos ht] at hsm
            have hpmem : p ∈ preds.filter (fun q => decide (¬ q ∈ t.cols)) :=
              List.mem_filter.mpr ⟨hp, by simpa using hpn⟩
            rw [hsm] at hpmem
            exact List.not_mem_nil p hpmem
          · rw [if_neg ht] at hsm
            exact List.cons_ne_nil _ _ hsm
      · have hrec := ih htail
        cases hres : run_structural_paths t rest with
        | error e => simp [except_is_error]
        | ok rs =>
          rw [hres] at hrec
          exact absurd hrec (by simp [except_is_error])
    · rw [if_neg hsm]
      rfl

/-- Witness for C8: the hard-coded path specs on a table that has only the
`OE` column, so the first spec's predictors are absent. -/
theorem run_structural_paths_missing_column_witness :
    except_is_error (run_structural_paths sC8 PATH_SPECS) = true :=
  run_structural_paths_missing_column sC8 PATH_SPECS "OE" ["MAINT", "COMP", "SUPINT"]
    (by decide) (Or.inr ⟨"MAINT", by decide, by decide⟩)

/-! ### C6: the path regression on a perfect line -/

theorem cdot_self_pos {n : ℕ} {v : Fin n → K} (h : ∃ i j, v i ≠ v j) :
    0 < cdot v v := by
  rcases h with ⟨i, j, hij⟩
  have hnonneg : 0 ≤ cdot v v :=
    Finset.sum_nonneg fun t _ => mul_self_nonneg _
  rcases lt_or_eq_of_le hnonneg with hlt | heq
  · exact hlt
  · exfalso
    have hall := (Finset.sum_eq_zero_iff_of_nonneg
      (fun s _ => mul_self_nonneg (v s - vmean v))).mp heq.symm
    have hv : ∀ t : Fin n, v t = vmean v := fun t => by
      have := mul_self_eq_zero.mp (hall t (Finset.mem_univ t))
      linarith
    exact hij (by rw [hv i, hv j])

/-- C6: on a complete single-predictor table with at least two distinct
predictor values and `y = 2*x + 1` exactly, `_ols_regression` returns
intercept `1`, coefficient `2` and `R² = 1` (exactly, hence within the
`1e-6` tolerance). -/
theorem ols_perfect_line {n : ℕ} (nm : String) (df : String → Fin n → ℚ)
    (y : Fin n → ℚ) (hx : ∃ i j, df nm i ≠ df nm j)
    (hy : ∀ i, y i = 2 * df nm i + 1) :
    ols_regression y [nm] df =
      { intercept := 1, coefficients := [(nm, 2)], r2 := some 1, nObs := n } := by
  set x : Fin n → ℚ := df nm with hxdef
  have hS : 0 < cdot x x := cdot_self_pos hx
  have hn0 : 0 < n := by
    rcases hx with ⟨i, _, _⟩
    exact i.pos
  have hnQ : ((n : ℚ)) ≠ 0 := Nat.cast_ne_zero.mpr hn0.ne'
  set D := design (fun _ : Fin 1 => x) with hDdef
  have hD0 : ∀ i, D i 0 = 1 := fun i => rfl
  have hD1 : ∀ i, D i 1 = x i := fun i => rfl
  set A := D.transpose * D with hAdef
  have hA00 : A 0 0 = (n : ℚ) := by
    simp [hAdef, Matrix.mul_apply, Matrix.transpose_apply, hD0]
  have hA01 : A 0 1 = ∑ i, x i := by
    simp [hAdef, Matrix.mul_apply, Matrix.transpose_apply, hD0, hD1]
  have hA10 : A 1 0 = ∑ i, x i := by
    simp [hAdef, Matrix.mul_apply, Matrix.transpose_apply, hD0, hD1]
  have hA11 : A 1 1 = ∑ i, x i * x i := by
    simp [hAdef, Matrix.mul_apply, Matrix.transpose_apply, hD1]
  have hsum : cdot x x = (∑ i, x i * x i) - 2 * vmean x * (∑ i, x i) +
      (n : ℚ) * vmean x ^ 2 := by
    unfold cdot
    rw [Finset.sum_congr rfl fun i _ =>
      (by ring : (x i - vmean x) * (x i - vmean x)
        = x i * x i - 2 * vmean x * x i + vmean x ^ 2)]
    rw [Finset.sum_add_distrib, Finset.sum_sub_distrib, ← Finset.mul_sum,
      Finset.sum_const, Finset.card_univ, Fintype.card_fin, nsmul_eq_mul]
  have hdet : A.det = (n : ℚ) * cdot x x := by
    rw [Matrix.det_fin_two, hA00, hA01, hA10, hA11, hsum, vmean]
    field_simp
    ring
  have hunit : IsUnit A.det := by
    rw [hdet]
    exact isUnit_iff_ne_zero.mpr
      (mul_pos (by exact_mod_cast hn0) hS).ne'
  have hYsum : ∑ i, y i = 2 * (∑ i, x i) + (n : ℚ) := by
    rw [Finset.sum_congr rfl fun i _ => hy i, Finset.sum_add_distrib,
      ← Finset.mul_sum, Finset.sum_const, Finset.card_univ, Fintype.card_fin,
      nsmul_eq_mul, mul_one]
  have hXYsum : ∑ i, x i * y i = 2 * (∑ i, x i * x i) + (∑ i, x i) := by
    rw [Finset.sum_congr rfl fun i _ =>
      (by rw [hy i]; ring : x i * y i = 2 * (x i * x i) + x i)]
    rw [Finset.sum_add_distrib, ← Finset.mul_sum]
  have hAc : A.mulVec ![1, 2] = D.transpose.mulVec y := by
    have h0 : A.mulVec ![1, 2] 0 = D.transpose.mulVec y 0 := by
      simp only [Matrix.mulVec, Matrix.dotProduct, Matrix.transpose_apply,
        Fin.sum_univ_succ, Fin.sum_univ_zero, Fin.succ_zero_eq_one,
        Matrix.cons_val_zero, Matrix.cons_val_one, Matrix.head_cons, add_zero,
        hD0, one_mul]
      rw [hA00, hA01, hYsum]
      ring
    have h1 : A.mulVec ![1, 2] 1 = D.transpose.mulVec y 1 := by
      simp only [Matrix.mulVec, Matrix.dotProduct, Matrix.transpose_apply,
        Fin.sum_univ_succ, Fin.sum_univ_zero, Fin.succ_zero_eq_one,
        Matrix.cons_val_zero, Matrix.cons_val_one, Matrix.head_cons, add_zero,
        hD1]
      rw [hA10, hA11, hXYsum]
      ring
    funext u
    fin_cases u
    · exact h0
    · exact h1
  have hcoef : ols_coef y (fun _ : Fin 1 => x) = ![1, 2] := by
    unfold ols_coef
    rw [← hDdef, ← hAdef, ← Matrix.mulVec_mulVec, ← hAc, Matrix.mulVec_mulVec,
      Matrix.nonsing_inv_mul A hunit, Matrix.one_mulVec]
  have hpred : D.mulVec ![1, 2] = y := by
    funext i
    simp only [Matrix.mulVec, Matrix.dotProduct, Fin.sum_univ_succ,
      Fin.sum_univ_zero, Fin.succ_zero_eq_one, Matrix.cons_val_zero,
      Matrix.cons_val_one, Matrix.head_cons, add_zero, hD0, hD1]
    rw [hy i]
    ring
  have hmy : vmean y = 2 * vmean x + 1 := by
    unfold vmean
    rw [hYsum]
    field_simp
  have hsstot : (∑ i, (y i - vmean y) ^ 2) = 4 * cdot x x := by
    unfold cdot
    rw [Finset.mul_sum]
    refine Finset.sum_congr rfl fun i _ => ?_
    rw [hy i, hmy]
    ring
  have hfit : ols_fit y (fun _ : Fin 1 => x) = (![1, 2], some 1) := by
    simp only [ols_fit]
    rw [← hDdef, hcoef, hpred]
    have h0 : (∑ i, (y i - y i) ^ 2) = (0 : ℚ) := by simp
    rw [h0, hsstot, if_neg (mul_pos four_pos hS).ne', zero_div, sub_zero]
  have harg : (fun j : Fin ([nm].length) => df ([nm].get j)) =
      (fun _ : Fin 1 => x) := by
    funext j
    have hj : ([nm].get j) = nm := by fin_cases j <;> rfl
    rw [hj, hxdef]
  unfold ols_regression
  rw [harg, hfit]
  simp [List.ofFn_succ, Fin.succ_zero_eq_one]

/-- Witness for C6 at the two-point data set `x = (0,1)`, `y = (1,3)`. -/
theorem ols_perfect_line_witness :
    ols_regression yC6 ["x"] dfC6 =
      { intercept := 1, coefficients := [("x", 2)], r2 := some 1, nObs := 2 } :=
  ols_perfect_line "x" dfC6 yC6 ⟨0, 1, by norm_num [dfC6]⟩
    (fun i => by fin_cases i <;> norm_num [dfC6, yC6])

/-! ### C3: an all-zero-variance indicator matrix degrades gracefully -/

theorem standardize_of_popVar_eq_zero {n : ℕ} {v : Fin n → ℝ} (h : popVar v = 0) :
    standardize v = fun _ => 0 := by
  rw [standardize, if_pos h]

/-- C3: on an indicator matrix with `k ≥ 2` columns of zero variance (every
column constant), the outer-model statistics are all degenerate markers
rather than errors: alpha is not-a-number and every indicator loading is
not-a-number.  (In this embedding all outer-model functions are total, so no
exception is even expressible on this path.) -/
theorem zero_variance_degenerate {n k : ℕ} (X : Fin n → Fin k → ℝ) (j : Fin k)
    (hk : 2 ≤ k) (hconst : ∀ (j' : Fin k) (i i' : Fin n), X i j' = X i' j') :
    cronbach_alpha X = none ∧ loading X j = none := by
  constructor
  · have hrow : ∀ i i' : Fin n, (∑ j', X i j') = (∑ j', X i' j') := fun i i' =>
      Finset.sum_congr rfl fun j' _ => hconst j' i i'
    unfold cronbach_alpha
    rw [if_neg (Nat.not_lt.mpr hk)]
    cases hsv : sampleVar (fun i => ∑ j', X i j') with
    | none => rfl
    | some tv =>
      dsimp only
      have hn2 : ¬ n < 2 := by
        intro hlt
        simp [sampleVar, hlt] at hsv
      have htv : tv = 0 := by
        rw [sampleVar, if_neg hn2] at hsv
        rw [← Option.some_inj.mp hsv, sq_dev_sum_of_const hrow, zero_div]
      rw [if_pos htv]
  · have hcol : popVar (fun i => X i j) = 0 :=
      popVar_of_const fun i i' => hconst j i i'
    have hz : popVar (colZ X j) = 0 := by
      rw [colZ, standardize_of_popVar_eq_zero hcol]
      exact popVar_of_const fun _ _ => rfl
    rw [loading, if_pos (Or.inl hz)]

/-- Witness for C3 at the constant 2×2 matrix. -/
theorem zero_variance_degenerate_witness :
    cronbach_alpha XC3 = none ∧ loading XC3 0 = none :=
  zero_variance_degenerate XC3 0 (by norm_num) (fun _ _ _ => rfl)

/-! ### Infrastructure for the CR bound (C2) -/

theorem cdot_self_eq_n_popVar {n : ℕ} (v : Fin n → K) :
    cdot v v = (n : K) * popVar v := by
  have hsq : cdot v v = ∑ i, (v i - vmean v) ^ 2 :=
    Finset.sum_congr rfl fun i _ => (pow_two _).symm
  rcases Nat.eq_zero_or_pos n with h0 | h0
  · subst h0; simp [hsq]
  · have hn : (n : K) ≠ 0 := Nat.cast_ne_zero.mpr h0.ne'
    rw [hsq, popVar]
    field_simp

theorem cdot_of_mean_zero {n : ℕ} {x y : Fin n → K} (hx : vmean x = 0)
    (hy : vmean y = 0) : cdot x y = ∑ i, x i * y i := by
  unfold cdot
  rw [hx, hy]
  simp

theorem cdot_sq_le_mul {n : ℕ} (x y : Fin n → K) :
    (cdot x y) ^ 2 ≤ cdot x x * cdot y y := by
  have hxx : cdot x x = ∑ i, (x i - vmean x) ^ 2 :=
    Finset.sum_congr rfl fun i _ => (pow_two _).symm
  have hyy : cdot y y = ∑ i, (y i - vmean y) ^ 2 :=
    Finset.sum_congr rfl fun i _ => (pow_two _).symm
  rw [hxx, hyy, cdot]
  exact Finset.sum_mul_sq_le_sq_mul_sq Finset.univ _ _

theorem abs_corr_le_one {n : ℕ} {x y : Fin n → ℝ} (hx : 0 < cdot x x)
    (hy : 0 < cdot y y) : |corr x y| ≤ 1 := by
  have hprod : 0 < cdot x x * cdot y y := mul_pos hx hy
  have hsqrt : 0 < Real.sqrt (cdot x x * cdot y y) := Real.sqrt_pos.mpr hprod
  rw [corr, abs_div, abs_of_nonneg (Real.sqrt_nonneg _), div_le_one hsqrt,
    ← Real.sqrt_sq_eq_abs]
  exact Real.sqrt_le_sqrt (cdot_sq_le_mul x y)

theorem popVar_standardize {n : ℕ} (v : Fin n → ℝ) :
    popVar (standardize v) = if popVar v = 0 then 0 else 1 := by
  by_cases h : popVar v = 0
  · rw [if_pos h, standardize_of_popVar_eq_zero h]
    exact popVar_of_const fun _ _ => rfl
  · rw [if_neg h]
    have hn : 0 < n := pos_of_popVar_ne_zero h
    have hnQ : ((n : ℝ)) ≠ 0 := Nat.cast_ne_zero.mpr hn.ne'
    rw [standardize, if_neg h]
    have hm : vmean (fun i => (v i - vmean v) / Real.sqrt (popVar v)) = 0 := by
      rw [vmean, ← Finset.sum_div, sum_sub_vmean, zero_div, zero_div]
    rw [popVar, hm]
    have hterm : ∀ i : Fin n, ((v i - vmean v) / Real.sqrt (popVar v) - 0) ^ 2
        = (v i - vmean v) ^ 2 / popVar v := by
      intro i
      rw [sub_zero, div_pow, Real.sq_sqrt (popVar_nonneg v)]
    rw [Finset.sum_congr rfl fun i _ => hterm i, ← Finset.sum_div]
    have hS : (∑ i, (v i - vmean v) ^ 2) = popVar v * (n : ℝ) := by
      rw [popVar, div_mul_cancel₀ _ hnQ]
    rw [hS, mul_div_cancel_left₀ _ h, div_self hnQ]

theorem sum_standardize_sq {n : ℕ} {v : Fin n → ℝ} (h : popVar v ≠ 0) :
    cdot (standardize v) (standardize v) = (n : ℝ) := by
  rw [cdot_self_eq_n_popVar, popVar_standardize, if_neg h, mul_one]

theorem sum_compositeZ {n k : ℕ} (X : Fin n → Fin k → ℝ) :
    ∑ i, compositeZ X i = 0 := by
  unfold compositeZ colZ
  rw [← Finset.sum_div, Finset.sum_comm]
  rw [Finset.sum_congr rfl fun j _ => sum_standardize (fun i => X i j)]
  simp

theorem vmean_compositeZ {n k : ℕ} (X : Fin n → Fin k → ℝ) :
    vmean (compositeZ X) = 0 := by
  rw [vmean, sum_compositeZ, zero_div]

theorem sum_filterMap_getD {α : Type} (l : List α) (f : α → Option K) :
    (l.filterMap f).sum = (l.map (fun a => (f a).getD 0)).sum := by
  induction l with
  | nil => rfl
  | cons a t ih =>
    cases hfa : f a with
    | none => simp [List.filterMap_cons, hfa, ih]
    | some b => simp [List.filterMap_cons, hfa, ih]

/-- On a composite with nonzero variance, the loading is a closed-form ratio:
`NaN` for zero-variance columns, and for the others the standardised cross
moment divided by `n * sqrt(popVar composite)`. -/
theorem loading_eq {n k : ℕ} (X : Fin n → Fin k → ℝ) (j : Fin k)
    (hc : popVar (compositeZ X) ≠ 0) :
    loading X j = if popVar (fun i => X i j) = 0 then none
      else some ((∑ i, colZ X j i * compositeZ X i) /
        ((n : ℝ) * Real.sqrt (popVar (compositeZ X)))) := by
  have hn : 0 < n := pos_of_popVar_ne_zero hc
  have hpc : 0 < popVar (compositeZ X) := (popVar_nonneg _).lt_of_ne (Ne.symm hc)
  by_cases hcol : popVar (fun i => X i j) = 0
  · rw [if_pos hcol, loading]
    have hz : popVar (colZ X j) = 0 := by
      rw [colZ, popVar_standardize, if_pos hcol]
    rw [if_pos (Or.inl hz)]
  · rw [if_neg hcol, loading]
    have hz1 : popVar (colZ X j) = 1 := by
      rw [colZ, popVar_standardize, if_neg hcol]
    rw [if_neg (by rw [hz1]; push_neg; exact ⟨one_ne_zero, hc⟩)]
    refine congrArg some ?_
    rw [corr]
    have hzz : cdot (colZ X j) (colZ X j) = (n : ℝ) := by
      rw [colZ, sum_standardize_sq hcol]
    have hcc : cdot (compositeZ X) (compositeZ X) =
        (n : ℝ) * popVar (compositeZ X) := cdot_self_eq_n_popVar _
    have hzc : cdot (colZ X j) (compositeZ X) = ∑ i, colZ X j i * compositeZ X i := by
      refine cdot_of_mean_zero ?_ (vmean_compositeZ X)
      rw [colZ, vmean_standardize]
    rw [hzz, hcc, hzc]
    have hsq : (n : ℝ) * ((n : ℝ) * popVar (compositeZ X)) =
        ((n : ℝ)) ^ 2 * popVar (compositeZ X) := by ring
    rw [hsq, Real.sqrt_mul (sq_nonneg _), Real.sqrt_sq (Nat.cast_nonneg n)]

/-- The defined loadings sum to `k * sqrt(popVar composite)`, a positive
quantity: the loadings cannot cancel out. -/
theorem defined_loadings_sum {n k : ℕ} (X : Fin n → Fin k → ℝ)
    (hc : popVar (compositeZ X) ≠ 0) :
    (defined_loadings X).sum = (k : ℝ) * Real.sqrt (popVar (compositeZ X)) := by
  have hn : 0 < n := pos_of_popVar_ne_zero hc
  have hnQ : ((n : ℝ)) ≠ 0 := Nat.cast_ne_zero.mpr hn.ne'
  have hpc : 0 < popVar (compositeZ X) := (popVar_nonneg _).lt_of_ne (Ne.symm hc)
  have hs0 : Real.sqrt (popVar (compositeZ X)) ≠ 0 :=
    (Real.sqrt_pos.mpr hpc).ne'
  have h1 : (defined_loadings X).sum = ∑ j, ((loading X j).getD 0) := by
    rw [defined_loadings, sum_filterMap_getD, ← Fin.sum_univ_def]
  have h2 : ∀ j, (loading X j).getD 0 =
      (∑ i, colZ X j i * compositeZ X i) /
        ((n : ℝ) * Real.sqrt (popVar (compositeZ X))) := by
    intro j
    rw [loading_eq X j hc]
    by_cases hcol : popVar (fun i => X i j) = 0
    · rw [if_pos hcol]
      have hz : colZ X j = fun _ => 0 := by
        rw [colZ, standardize_of_popVar_eq_zero hcol]
      simp [hz]
    · rw [if_neg hcol]
      rfl
  have hzsum : ∀ i, (∑ j, colZ X j i) = (k : ℝ) * compositeZ X i := by
    intro i
    rcases Nat.eq_zero_or_pos k with hk0 | hk0
    · subst hk0; simp [compositeZ]
    · have hkQ : ((k : ℝ)) ≠ 0 := Nat.cast_ne_zero.mpr hk0.ne'
      unfold compositeZ colZ
      field_simp
  have hcsq : (∑ i, compositeZ X i * compositeZ X i) =
      (n : ℝ) * popVar (compositeZ X) := by
    rw [← cdot_of_mean_zero (vmean_compositeZ X) (vmean_compositeZ X)]
    exact cdot_self_eq_n_popVar _
  rw [h1, Finset.sum_congr rfl fun j _ => h2 j, ← Finset.sum_div,
    Finset.sum_comm]
  rw [Finset.sum_congr rfl fun i _ =>
    (Finset.sum_mul Finset.univ (fun j => colZ X j i) (compositeZ X i)).symm]
  rw [Finset.sum_congr rfl fun i _ => by rw [hzsum i]]
  rw [Finset.sum_congr rfl fun i _ =>
    (mul_assoc (k : ℝ) (compositeZ X i) (compositeZ X i))]
  rw [← Finset.mul_sum, hcsq]
  field_simp
  calc (k : ℝ) * ((n : ℝ) * popVar (compositeZ X))
      = (k : ℝ) * ((n : ℝ) * (Real.sqrt (popVar (compositeZ X)) *
          Real.sqrt (popVar (compositeZ X)))) := by
        rw [Real.mul_self_sqrt hpc.le]
    _ = (k : ℝ) * Real.sqrt (popVar (compositeZ X)) *
          ((n : ℝ) * Real.sqrt (popVar (compositeZ X))) := by ring

/-! ### C2: composite reliability lies in (0, 1] -/

/-- C2: on every complete-case indicator matrix where alpha and AVE are both
defined and some loading is positive, CR is defined and lies in the half-open
interval `(0, 1]`. -/
theorem cr_in_unit_interval {n k : ℕ} (X : Fin n → Fin k → ℝ)
    (halpha : cronbach_alpha X ≠ none) (hAVE : (cr_ave X).2 ≠ none)
    (hpos : ∃ j l, loading X j = some l ∧ 0 < l) :
    (cr_ave X).1 ≠ none ∧ 0 < (cr_ave X).1.getD 0 ∧ (cr_ave X).1.getD 0 ≤ 1 := by
  have hls : defined_loadings X ≠ [] := by
    intro h
    apply hAVE
    simp [cr_ave, h]
  obtain ⟨l0, hl0⟩ := List.exists_mem_of_ne_nil _ hls
  obtain ⟨j0, _, hj0⟩ := List.mem_filterMap.mp hl0
  have hc : popVar (compositeZ X) ≠ 0 := by
    intro hpc
    rw [loading, if_pos (Or.inr hpc)] at hj0
    exact absurd hj0 (by simp)
  have hpc : 0 < popVar (compositeZ X) := (popVar_nonneg _).lt_of_ne (Ne.symm hc)
  have hkpos : 0 < k := j0.pos
  have hsum : (defined_loadings X).sum =
      (k : ℝ) * Real.sqrt (popVar (compositeZ X)) := defined_loadings_sum X hc
  have hsum_pos : 0 < (defined_loadings X).sum := by
    rw [hsum]
    exact mul_pos (by exact_mod_cast hkpos) (Real.sqrt_pos.mpr hpc)
  have habs : ∀ l ∈ defined_loadings X, |l| ≤ 1 := by
    intro l hl
    obtain ⟨j, _, hj⟩ := List.mem_filterMap.mp hl
    rw [loading] at hj
    by_cases hz : popVar (colZ X j) = 0 ∨ popVar (compositeZ X) = 0
    · rw [if_pos hz] at hj
      exact absurd hj (by simp)
    · rw [if_neg hz] at hj
      push_neg at hz
      obtain ⟨hz1, hz2⟩ := hz
      have hzz : 0 < cdot (colZ X j) (colZ X j) := by
        rw [cdot_self_eq_n_popVar]
        exact mul_pos (by exact_mod_cast pos_of_popVar_ne_zero hz1)
          ((popVar_nonneg _).lt_of_ne (Ne.symm hz1))
      have hcc : 0 < cdot (compositeZ X) (compositeZ X) := by
        rw [cdot_self_eq_n_popVar]
        exact mul_pos (by exact_mod_cast pos_of_popVar_ne_zero hz2)
          ((popVar_nonneg _).lt_of_ne (Ne.symm hz2))
      rw [← Option.some_inj.mp hj]
      exact abs_corr_le_one hzz hcc
  have htheta : 0 ≤ ((defined_loadings X).map (fun l => 1 - l ^ 2)).sum := by
    apply List.sum_nonneg
    intro a ha
    obtain ⟨l, hl, rfl⟩ := List.mem_map.mp ha
    have hsq : l ^ 2 ≤ 1 := (sq_le_one_iff_abs_le_one l).mpr (habs l hl)
    linarith
  have hnum : 0 < (defined_loadings X).sum ^ 2 := pow_pos hsum_pos 2
  have hden : 0 < (defined_loadings X).sum ^ 2 +
      ((defined_loadings X).map (fun l => 1 - l ^ 2)).sum := by linarith
  have hcr : (cr_ave X).1 = some ((defined_loadings X).sum ^ 2 /
      ((defined_loadings X).sum ^ 2 +
        ((defined_loadings X).map (fun l => 1 - l ^ 2)).sum)) := by
    simp only [cr_ave]
    rw [if_neg hls, if_neg hden.ne']
  rw [hcr]
  refine ⟨by simp, ?_, ?_⟩
  · simp only [Option.getD_some]
    exact div_pos hnum hden
  · simp only [Option.getD_some]
    rw [div_le_one hden]
    linarith

/-! ### Concrete evaluation of the outer model at `X2` (for the C2 witness) -/

theorem X2_col (j : Fin 2) : (fun i => X2 i j) = ![0, 2] := by
  funext i
  fin_cases i <;> fin_cases j <;> simp [X2]

theorem X2_popVar_col : popVar (![0, 2] : Fin 2 → ℝ) = 1 := by
  norm_num [popVar, vmean, Fin.sum_univ_two]

theorem X2_colZ (j : Fin 2) : colZ X2 j = ![-1, 1] := by
  rw [colZ, X2_col]
  rw [standardize, if_neg (by rw [X2_popVar_col]; norm_num)]
  funext i
  fin_cases i <;>
    norm_num [X2_popVar_col, Real.sqrt_one, vmean, Fin.sum_univ_two]

theorem X2_compositeZ : compositeZ X2 = ![-1, 1] := by
  funext i
  rw [compositeZ, Fin.sum_univ_two, X2_colZ 0, X2_colZ 1]
  fin_cases i <;> norm_num

theorem X2_popVar_comp : popVar (![-1, 1] : Fin 2 → ℝ) = 1 := by
  norm_num [popVar, vmean, Fin.sum_univ_two]

theorem X2_cdot : cdot (![-1, 1] : Fin 2 → ℝ) ![-1, 1] = 2 := by
  norm_num [cdot, vmean, Fin.sum_univ_two]

theorem X2_loading (j : Fin 2) : loading X2 j = some 1 := by
  rw [loading, if_neg ?hguard]
  case hguard =>
    rw [X2_colZ j, X2_compositeZ, X2_popVar_comp]
    push_neg
    exact ⟨one_ne_zero, one_ne_zero⟩
  refine congrArg some ?_
  rw [corr, X2_colZ j, X2_compositeZ, X2_cdot]
  rw [show ((2 : ℝ) * 2) = 2 ^ 2 by norm_num,
    Real.sqrt_sq (by norm_num : (0 : ℝ) ≤ 2)]
  norm_num

theorem X2_defined_loadings : defined_loadings X2 = [1, 1] := by
  rw [defined_loadings]
  have hfr : List.finRange 2 = [0, 1] := by decide
  rw [hfr]
  simp [X2_loading]

/-- Witness for C2 at the matrix `X2` (both loadings evaluate to `1`, alpha
to `1`, AVE to `1`). -/
theorem cr_in_unit_interval_witness :
    (cr_ave X2).1 ≠ none ∧ 0 < (cr_ave X2).1.getD 0 ∧ (cr_ave X2).1.getD 0 ≤ 1 :=
  cr_in_unit_interval X2
    (by
      norm_num [cronbach_alpha, sampleVar, vmean, X2, Fin.sum_univ_two]
      exact Option.some_ne_none _)
    (by simp [cr_ave, X2_defined_loadings])
    ⟨0, 1, X2_loading 0, one_pos⟩

end GSCM
